import Mathlib

/-!
Verification of the M-step core of the multidimensional IRT (item response
theory) EM estimator implemented by the Python class `Mirt` in
`psy/irt/mirm.py`.

The embedding is shallow: a dense real matrix is a total function from a
pair of natural indices to rationals (entries outside an array's actual
bounds never matter; every theorem carries the bounds explicitly).
External collaborators of the core — numpy's dense linear solver, the
E-step, the logistic link, quadrature nodes/weights and the factor
rotation — are abstracted as function parameters, mirroring the design's
treatment of them as black boxes.
-/

namespace Mirm

/-- A dense real matrix, embedded as a total function on (row, column). -/
abbrev Mat : Type := ℕ → ℕ → ℚ

/-- Source `Mirt._get_theta_comb`: `list(combinations(range(dim_size), 2))`,
the lexicographically ordered list of all unordered pairs of latent-dimension
indices. -/
def get_theta_comb (D : ℕ) : List (ℕ × ℕ) :=
  (List.range D).flatMap fun a =>
    (List.range D).filterMap fun b => if a < b then some (a, b) else none

/-- The interaction-filling loop of `Mirt._get_hess` (`for k, comb in
enumerate(self._theta_comb)`).  Each step writes the pairwise curvature value
`vals k` symmetrically at positions `(a+1, b+1)` and `(b+1, a+1)` of the
`ps × ps` block; numpy raises `IndexError` when a target index is out of
range, and the `except IndexError: break` ends the loop at the *first* such
pair, so the remainder of the list is not processed. -/
def fill_comb (ps : ℕ) (vals : ℕ → ℚ) : List (ℕ × ℕ) → ℕ → Mat → Mat
  | [], _, h => h
  | (a, b) :: rest, k, h =>
    if a + 1 < ps ∧ b + 1 < ps then
      fill_comb ps vals rest (k + 1) fun p q =>
        if (p = a + 1 ∧ q = b + 1) ∨ (p = b + 1 ∧ q = a + 1) then vals k else h p q
    else h

/-- The first three assignments of `Mirt._get_hess`: row 0 takes the leading
`param_size` Hessian values, column 0 below the corner takes values
`1..param_size-1`, and diagonal entry `j` (for `1 ≤ j < param_size`) takes
value `dim_size + j`; every other entry of the `np.zeros` block stays 0.
Here `param_size = D + 1 - fix`. -/
def hess_base (D : ℕ) (hessVals : Mat) (i fix : ℕ) : Mat := fun p q =>
  if p = 0 ∧ q < D + 1 - fix then hessVals i q
  else if 1 ≤ p ∧ p < D + 1 - fix ∧ q = 0 then hessVals i p
  else if p = q ∧ 1 ≤ p ∧ p < D + 1 - fix then hessVals i (D + p)
  else 0

/-- Source `Mirt._get_hess`: assemble the active `param_size × param_size`
Hessian block of item `i` from row `i` of the flattened Hessian-values
matrix, where `param_size = dim_size + 1 - fix_param_size`.  The pairwise
curvature for table index `k` sits at flat column
`dim_size + 1 + dim_size + k`. -/
def get_hess (D : ℕ) (comb : List (ℕ × ℕ)) (hessVals : Mat) (i fix : ℕ) : Mat :=
  fill_comb (D + 1 - fix) (fun k => hessVals i (D + 1 + D + k)) comb 0
    (hess_base D hessVals i fix)

/-- `fill_comb` preserves symmetry of the block: each step writes the same
value at a position and its transpose. -/
theorem fill_comb_symm (ps : ℕ) (vals : ℕ → ℚ) (l : List (ℕ × ℕ)) :
    ∀ (k : ℕ) (h : Mat), (∀ p q, h p q = h q p) →
      ∀ p q, fill_comb ps vals l k h p q = fill_comb ps vals l k h q p := by
  induction l with
  | nil => intro k h hsym p q; exact hsym p q
  | cons ab rest ih =>
    intro k h hsym p q
    obtain ⟨a, b⟩ := ab
    simp only [fill_comb]
    by_cases hg : a + 1 < ps ∧ b + 1 < ps
    · simp only [if_pos hg]
      apply ih
      intro u v
      by_cases h1 : (u = a + 1 ∧ v = b + 1) ∨ (u = b + 1 ∧ v = a + 1)
      · have h2 : (v = a + 1 ∧ u = b + 1) ∨ (v = b + 1 ∧ u = a + 1) := by tauto
        rw [if_pos h1, if_pos h2]
      · have h2 : ¬((v = a + 1 ∧ u = b + 1) ∨ (v = b + 1 ∧ u = a + 1)) := by tauto
        rw [if_neg h1, if_neg h2]
        exact hsym u v
    · simp only [if_neg hg]
      exact hsym p q

/-- The base block written by the first three assignments is symmetric. -/
theorem hess_base_symm (D : ℕ) (hessVals : Mat) (i fix : ℕ) (p q : ℕ) :
    hess_base D hessVals i fix p q = hess_base D hessVals i fix q p := by
  unfold hess_base
  split_ifs <;> first | rfl | omega | (congr 1; omega)

/-- C5: for every latent dimensionality, every Hessian-values input, every
item and every `fix_param_size`, the per-item Hessian block assembled by
`Mirt._get_hess` is symmetric: `hess[p, q] = hess[q, p]` at all indices. -/
theorem c5_hess_block_symmetric (D : ℕ) (hessVals : Mat) (i fix p q : ℕ) :
    get_hess D (get_theta_comb D) hessVals i fix p q
      = get_hess D (get_theta_comb D) hessVals i fix q p := by
  unfold get_hess
  exact fill_comb_symm _ _ _ _ _ (hess_base_symm D hessVals i fix) p q

/-- C2 counterexample: with `dim_size = 4` and `fix_param_size = 1`
(`param_size = 4`), the interaction table is
`[(0,1), (0,2), (0,3), (1,2), (1,3), (2,3)]`; pair `(1,2)` at table index
`k = 3` satisfies `k2 + 1 = 3 < param_size`, so the claim says position
`(2, 3)` of the block is filled with the value at flat column
`2*4 + 1 + 3 = 12` of the Hessian-values row (here 12).  The code instead
stops at the earlier out-of-range pair `(0,3)` (`except IndexError: break`),
leaving position `(2, 3)` at 0. -/
theorem c2_counterexample :
    (get_theta_comb 4).get? 3 = some (1, 2) ∧
    get_hess 4 (get_theta_comb 4) (fun _ c => (c : ℚ)) 0 1 2 3 = 0 ∧
    ((fun (_ c : ℕ) => (c : ℚ)) 0 (2 * 4 + 1 + 3) : ℚ) ≠ 0 := by
  refine ⟨by decide, by decide, by norm_num⟩

/-- The `while temp_idx:` loop of `Mirt._fix_slop`, counting `t` down from
`dim_size - 1` to 1: `slop[t][-t:] = 0` zeroes the last `t` entries of row
`t` (columns `nItems - t .. nItems - 1`; numpy clamps the negative slice
start at 0 when `t > nItems`). -/
def fix_slop_go (nItems : ℕ) : ℕ → Mat → Mat
  | 0, slop => slop
  | t + 1, slop =>
    fix_slop_go nItems t fun r c =>
      if r = t + 1 ∧ nItems - (t + 1) ≤ c ∧ c < nItems then 0 else slop r c

/-- Source `Mirt._fix_slop`: zero the identifiability pattern of the slope
matrix, starting from row `dim_size - 1`. -/
def fix_slop (D nItems : ℕ) (slop : Mat) : Mat :=
  fix_slop_go nItems (D - 1) slop

/-- Closed form of the zeroing loop: rows `1..t0` have their trailing
entries zeroed, everything else is untouched. -/
theorem fix_slop_go_eq (nItems : ℕ) :
    ∀ (t0 : ℕ) (slop : Mat) (r c : ℕ),
      fix_slop_go nItems t0 slop r c
        = if 1 ≤ r ∧ r ≤ t0 ∧ nItems - r ≤ c ∧ c < nItems then 0 else slop r c := by
  intro t0
  induction t0 with
  | zero =>
    intro slop r c
    simp only [fix_slop_go]
    rw [if_neg (by omega)]
  | succ t ih =>
    intro slop r c
    simp only [fix_slop_go]
    rw [ih]
    split_ifs <;> first | rfl | omega

/-- The identifiability zero pattern: entry `(r, c)` is constrained when
`1 ≤ r < D` and `c` lies among the last `r` columns. -/
def ZeroPat (D nItems : ℕ) (slop : Mat) : Prop :=
  ∀ r c, 1 ≤ r → r < D → nItems - r ≤ c → c < nItems → slop r c = 0

/-- The mutable state threaded through `Mirt._m_step`: the slope matrix, the
threshold row, and the delta-recording arrays (`np.zeros_like` initialised). -/
structure MState where
  slop : Mat
  threshold : ℕ → ℚ
  sdl : Mat
  tdl : ℕ → ℚ

/-- The abstract dense linear solver `np.linalg.solve`: given the active
block size, the active Hessian and the active Jacobian, it either returns a
delta vector or raises (`none`, numpy's `LinAlgError` on a singular
matrix). -/
abbrev Solver : Type := ℕ → Mat → (ℕ → ℚ) → Option (ℕ → ℚ)

/-- Source `Mirt._get_jac`: the active Jacobian of item `i` is the first
`dim_size - fix_param_size + 1` entries of column `i` of the stacked
Jacobian. -/
def get_jac (D : ℕ) (jacAll : Mat) (i fix : ℕ) : ℕ → ℚ := fun r =>
  if r < D - fix + 1 then jacAll r i else 0

/-- The per-item write-back of `Mirt._m_step`: with
`slop_est_param_idx = dim_size - fix_param_size`, subtract `delta[1:]` from
the first `slop_est_param_idx` slope rows of column `i`, subtract `delta[0]`
from `threshold[:, i]`, and record exactly these deltas. -/
def m_step_update (D : ℕ) (st : MState) (i fix : ℕ) (delta : ℕ → ℚ) : MState where
  slop := fun r c =>
    if c = i ∧ r < D - fix then st.slop r c - delta (r + 1) else st.slop r c
  threshold := fun c => if c = i then st.threshold c - delta 0 else st.threshold c
  sdl := fun r c => if c = i ∧ r < D - fix then delta (r + 1) else st.sdl r c
  tdl := fun c => if c = i then delta 0 else st.tdl c

/-- The `while i >= 0:` loop of `Mirt._m_step`: the first argument is the
number of items still to process (the next item is that number minus one),
the second is the current `fix_param_size`, decremented after each item but
floored at 0 (`if fix_param_size > 0: fix_param_size -= 1`; natural
subtraction).  A raised `LinAlgError` (`none` from the solver) propagates. -/
def m_step_loop (D : ℕ) (comb : List (ℕ × ℕ)) (solve : Solver)
    (jacAll hessVals : Mat) : ℕ → ℕ → MState → Option MState
  | 0, _, st => some st
  | i + 1, fix, st =>
    match solve (D + 1 - fix) (get_hess D comb hessVals i fix) (get_jac D jacAll i fix) with
    | none => none
    | some delta =>
      m_step_loop D comb solve jacAll hessVals i (fix - 1) (m_step_update D st i fix delta)

/-- The residual `dp = right_dis - full_dis * p_val` of `Mirt._m_step`. -/
def dp_mat (full right p : Mat) : Mat := fun r c => right r c - full r c * p r c

/-- The curvature weight `ddp = full_dis * p_val * (1 - p_val)` of
`Mirt._m_step`. -/
def ddp_mat (full p : Mat) : Mat := fun r c => full r c * p r c * (1 - p r c)

/-- Sum of `f` over the quadrature-node indices `0 .. n - 1`. -/
def sumRange (n : ℕ) (f : ℕ → ℚ) : ℚ := ((List.range n).map f).sum

/-- The stacked Jacobian `jac_all = vstack(sum(dp, axis=0), theta.T @ dp)`
of `Mirt._m_step`: row 0 is the node-sum of `dp`, row `r ≥ 1` is the inner
product of node-column `r - 1` of `theta` with `dp`. -/
def jac_all (nNodes : ℕ) (theta dpv : Mat) : Mat := fun r j =>
  if r = 0 then sumRange nNodes fun node => dpv node j
  else sumRange nNodes fun node => theta node (r - 1) * dpv node j

/-- Source `Mirt._get_theta_mat`: the extended design matrix, by flat column
index — a ones column, the `dim_size` node values, their squares, then one
product column per interaction-table pair (`np.concatenate`). -/
def get_theta_mat (D : ℕ) (theta : Mat) : Mat := fun r c =>
  if c = 0 then 1
  else if c ≤ D then theta r (c - 1)
  else if c ≤ 2 * D then (theta r (c - D - 1)) ^ 2
  else
    match (get_theta_comb D).get? (c - 2 * D - 1) with
    | some pr => theta r pr.1 * theta r pr.2
    | none => 0

/-- The flattened Hessian-values matrix
`fake_hess = -1 * (ddp.T @ base_hess)` of `Mirt._m_step` (one row per item,
one column per independent Hessian entry). -/
def fake_hess (D nNodes : ℕ) (theta full p : Mat) : Mat := fun i c =>
  -1 * sumRange nNodes fun node => ddp_mat full p node i * get_theta_mat D theta node c

/-- Source `Mirt._m_step`: build `dp`, `ddp`, the stacked Jacobian and the
Hessian-values matrix, zero-initialise the delta-recording arrays, and run
the per-item Newton loop from the last item (`i = slop.shape[1] - 1`) with
`fix_param_size = dim_size - 1`. -/
def m_step (D nNodes nItems : ℕ) (comb : List (ℕ × ℕ)) (solve : Solver)
    (full right : Mat) (slop : Mat) (threshold : ℕ → ℚ) (theta p : Mat) :
    Option MState :=
  m_step_loop D comb solve
    (jac_all nNodes theta (dp_mat full right p))
    (fake_hess D nNodes theta full p)
    nItems (D - 1)
    ⟨slop, threshold, fun _ _ => 0, fun _ => 0⟩

/-- Frame property of the Newton loop: columns at or beyond the remaining
item count are never written. -/
theorem m_step_loop_frame (D : ℕ) (comb : List (ℕ × ℕ)) (solve : Solver)
    (jacAll hessVals : Mat) :
    ∀ (fuel fix : ℕ) (st st' : MState),
      m_step_loop D comb solve jacAll hessVals fuel fix st = some st' →
      ∀ c, fuel ≤ c →
        (∀ r, st'.slop r c = st.slop r c) ∧ st'.threshold c = st.threshold c ∧
        (∀ r, st'.sdl r c = st.sdl r c) ∧ st'.tdl c = st.tdl c := by
  intro fuel
  induction fuel with
  | zero =>
    intro fix st st' h c _
    simp only [m_step_loop, Option.some.injEq] at h
    subst h
    exact ⟨fun _ => rfl, rfl, fun _ => rfl, rfl⟩
  | succ i ih =>
    intro fix st st' h c hc
    simp only [m_step_loop] at h
    cases hs : solve (D + 1 - fix) (get_hess D comb hessVals i fix)
        (get_jac D jacAll i fix) with
    | none => rw [hs] at h; cases h
    | some delta =>
      rw [hs] at h
      obtain ⟨h1, h2, h3, h4⟩ := ih (fix - 1) _ st' h c (by omega)
      have hci : ¬ c = i := by omega
      refine ⟨fun r => ?_, ?_, fun r => ?_, ?_⟩
      · rw [h1 r]; simp [m_step_update, hci]
      · rw [h2]; simp [m_step_update, hci]
      · rw [h3 r]; simp [m_step_update, hci]
      · rw [h4]; simp [m_step_update, hci]

/-- Characterization of the Newton loop: when it succeeds, the item
processed with `fuel - 1 - i` steps remaining after it was entered with
`fix_param_size = fix` received exactly one update, from the solver's delta
at its active Hessian and Jacobian, with `fix_param_size` decremented once
per processed item and floored at 0. -/
theorem m_step_loop_char (D : ℕ) (comb : List (ℕ × ℕ)) (solve : Solver)
    (jacAll hessVals : Mat) :
    ∀ (fuel fix : ℕ) (st st' : MState),
      m_step_loop D comb solve jacAll hessVals fuel fix st = some st' →
      ∀ i, i < fuel →
        ∃ delta,
          solve (D + 1 - (fix - (fuel - 1 - i)))
              (get_hess D comb hessVals i (fix - (fuel - 1 - i)))
              (get_jac D jacAll i (fix - (fuel - 1 - i))) = some delta ∧
          (∀ r, st'.slop r i =
            if r < D - (fix - (fuel - 1 - i)) then st.slop r i - delta (r + 1)
            else st.slop r i) ∧
          st'.threshold i = st.threshold i - delta 0 ∧
          (∀ r, st'.sdl r i =
            if r < D - (fix - (fuel - 1 - i)) then delta (r + 1) else st.sdl r i) ∧
          st'.tdl i = delta 0 := by
  intro fuel
  induction fuel with
  | zero => intro fix st st' _ i hi; omega
  | succ f ih =>
    intro fix st st' h i hi
    simp only [m_step_loop] at h
    cases hs : solve (D + 1 - fix) (get_hess D comb hessVals f fix)
        (get_jac D jacAll f fix) with
    | none => rw [hs] at h; cases h
    | some delta0 =>
      rw [hs] at h
      by_cases hif : i = f
      · subst hif
        have hfx : fix - (i + 1 - 1 - i) = fix := by omega
        rw [hfx]
        obtain ⟨h1, h2, h3, h4⟩ :=
          m_step_loop_frame D comb solve jacAll hessVals i (fix - 1) _ st' h i le_rfl
        refine ⟨delta0, hs, fun r => ?_, ?_, fun r => ?_, ?_⟩
        · rw [h1 r]; simp [m_step_update]
        · rw [h2]; simp [m_step_update]
        · rw [h3 r]; simp [m_step_update]
        · rw [h4]; simp [m_step_update]
      · obtain ⟨delta, hsolve, h1, h2, h3, h4⟩ := ih (fix - 1) _ st' h i (by omega)
        have hfx : fix - 1 - (f - 1 - i) = fix - (f + 1 - 1 - i) := by omega
        rw [hfx] at hsolve h1 h3
        refine ⟨delta, hsolve, fun r => ?_, ?_, fun r => ?_, ?_⟩
        · rw [h1 r]; simp [m_step_update, hif]
        · rw [h2]; simp [m_step_update, hif]
        · rw [h3 r]; simp [m_step_update, hif]
        · exact h4

/-- If the solver raises on the item processed with `fuel - 1 - i` steps
remaining, the whole loop raises (`except` never appears in the source:
nothing is caught). -/
theorem m_step_loop_fail (D : ℕ) (comb : List (ℕ × ℕ)) (solve : Solver)
    (jacAll hessVals : Mat) :
    ∀ (fuel fix : ℕ) (st : MState) (i : ℕ), i < fuel →
      solve (D + 1 - (fix - (fuel - 1 - i)))
          (get_hess D comb hessVals i (fix - (fuel - 1 - i)))
          (get_jac D jacAll i (fix - (fuel - 1 - i))) = none →
      m_step_loop D comb solve jacAll hessVals fuel fix st = none := by
  intro fuel
  induction fuel with
  | zero => intro fix st i hi; omega
  | succ f ih =>
    intro fix st i hi hnone
    by_cases hif : i = f
    · subst hif
      have hfx : fix - (i + 1 - 1 - i) = fix := by omega
      rw [hfx] at hnone
      simp only [m_step_loop, hnone]
    · have hfx : fix - (f + 1 - 1 - i) = fix - 1 - (f - 1 - i) := by omega
      rw [hfx] at hnone
      simp only [m_step_loop]
      cases hs : solve (D + 1 - fix) (get_hess D comb hessVals f fix)
          (get_jac D jacAll f fix) with
      | none => rfl
      | some delta0 => exact ih (fix - 1) _ i (by omega) hnone

/-- C1: the identifiability zero pattern is established by `Mirt._fix_slop`
(row `r` for `1 ≤ r ≤ dim_size - 1` is zeroed on its last `r` columns) and
is preserved by every `Mirt._m_step` call, because the per-item Newton
write-back touches only the first `dim_size - fix_param_size` slope rows of
the item's column. -/
theorem c1_identifiability (D nItems nNodes : ℕ) (solve : Solver)
    (full right : Mat) (s : Mat) (threshold : ℕ → ℚ) (theta p : Mat) (st' : MState) :
    (∀ r c, 1 ≤ r → r < D → nItems - r ≤ c → c < nItems →
      fix_slop D nItems s r c = 0) ∧
    (ZeroPat D nItems s →
      m_step D nNodes nItems (get_theta_comb D) solve full right s threshold theta p
        = some st' →
      ZeroPat D nItems st'.slop) := by
  constructor
  · intro r c h1 h2 h3 h4
    rw [fix_slop, fix_slop_go_eq, if_pos (by omega)]
  · intro hz hm r c h1 h2 h3 h4
    simp only [m_step] at hm
    obtain ⟨delta, -, hslop, -, -, -⟩ :=
      m_step_loop_char D (get_theta_comb D) solve _ _ nItems (D - 1) _ st' hm c h4
    rw [hslop r, if_neg (by omega)]
    exact hz r c h1 h2 h3 h4

/-- C3: in each M-step, items are processed from the last slope column down
to column 0, with `fix_param_size` starting at `dim_size - 1` and
decremented once per item with a floor of 0 (the item at column `i` is
reached with `fix_param_size = (dim_size - 1) - (n_items - 1 - i)`); the
active Jacobian is the first `dim_size - fix_param_size + 1` entries of
column `i` of the stacked Jacobian, the delta is the solver's output at the
active Hessian and active Jacobian, and the write-back subtracts `delta[0]`
from `threshold[i]` and `delta[1:]` from the first
`dim_size - fix_param_size` slope rows of column `i`, recording exactly
these delta magnitudes. -/
theorem c3_per_item_newton_update (D nNodes nItems : ℕ) (solve : Solver)
    (full right : Mat) (s : Mat) (threshold : ℕ → ℚ) (theta p : Mat) (st' : MState)
    (hm : m_step D nNodes nItems (get_theta_comb D) solve full right s threshold theta p
      = some st')
    (i : ℕ) (hi : i < nItems) :
    ∃ delta,
      solve (D + 1 - (D - 1 - (nItems - 1 - i)))
          (get_hess D (get_theta_comb D) (fake_hess D nNodes theta full p) i
            (D - 1 - (nItems - 1 - i)))
          (get_jac D (jac_all nNodes theta (dp_mat full right p)) i
            (D - 1 - (nItems - 1 - i))) = some delta ∧
      (∀ r, get_jac D (jac_all nNodes theta (dp_mat full right p)) i
          (D - 1 - (nItems - 1 - i)) r
        = if r < D - (D - 1 - (nItems - 1 - i)) + 1
          then jac_all nNodes theta (dp_mat full right p) r i else 0) ∧
      st'.threshold i = threshold i - delta 0 ∧
      (∀ r, st'.slop r i =
        if r < D - (D - 1 - (nItems - 1 - i)) then s r i - delta (r + 1) else s r i) ∧
      (∀ r, st'.sdl r i =
        if r < D - (D - 1 - (nItems - 1 - i)) then delta (r + 1) else 0) ∧
      st'.tdl i = delta 0 := by
  simp only [m_step] at hm
  obtain ⟨delta, hsolve, h1, h2, h3, h4⟩ :=
    m_step_loop_char D (get_theta_comb D) solve _ _ nItems (D - 1) _ st' hm i hi
  exact ⟨delta, hsolve, fun r => rfl, h2, h1, h3, h4⟩

/-- `np.max(np.abs(m))` over a `rows × cols` array (all absolute entries are
nonnegative, so folding `max` from 0 coincides with numpy's maximum on a
nonempty array). -/
def matMaxAbs (rows cols : ℕ) (m : Mat) : ℚ :=
  ((List.range rows).flatMap fun r => (List.range cols).map fun c => |m r c|).foldr max 0

/-- What one run of `Mirt.fit` produces: the returned triple
`(slop, threshold, loadings)` plus the two out-of-band diagnostics — the
iteration index printed on convergence (`print(i)`) and the value carried by
the non-convergence warning (`warnings.warn(...)`). -/
structure FitOutcome where
  slop : Mat
  threshold : ℕ → ℚ
  loadings : Mat
  printed : Option ℕ
  warned : Option ℚ

section FitDriver

variable (D nNodes nItems : ℕ) (comb : List (ℕ × ℕ)) (solve : Solver)
  (pfun : Mat → (ℕ → ℚ) → Mat) (estep : Mat → Mat × Mat) (theta : Mat)
  (gfun : Mat → Mat) (tol : ℚ)

/-- One EM iteration body of `Mirt.fit` up to the convergence test:
`p_val = self.p(self.z(slop, threshold, nodes))` and
`full_dis, right_dis, loglik = self._e_step(p_val, weights)` are the
black-box link and E-step collaborators (`pfun` and `estep`; the unused
`loglik` is dropped), after which `Mirt._m_step` runs. -/
def fitStep (slop : Mat) (threshold : ℕ → ℚ) : Option MState :=
  m_step D nNodes nItems comb solve (estep (pfun slop threshold)).1
    (estep (pfun slop threshold)).2 slop threshold theta (pfun slop threshold)

/-- The `for i in range(max_iter):` loop of `Mirt.fit`.  First argument:
iterations left; second: the 0-based index `i` of the next iteration; last
argument: the delta maximum of the previous iteration (`none` before the
first iteration — reaching the warning with it still `none` is the
`NameError` on the undefined delta lists, an exception, hence `none`
overall).  On convergence the current estimate is returned with the
iteration index printed; on loop exhaustion the warning carries
`max(np.max(np.abs(slop_delta_list)), np.max(np.abs(threshold_delta_list)))`
of the last iteration and the same triple is returned. -/
def fit_go : ℕ → ℕ → Mat → (ℕ → ℚ) → Option ℚ → Option FitOutcome
  | 0, _, slop, threshold, last =>
    match last with
    | none => none
    | some v => some ⟨slop, threshold, gfun slop, none, some v⟩
  | fuel + 1, iter, slop, threshold, _ =>
    match fitStep D nNodes nItems comb solve pfun estep theta slop threshold with
    | none => none
    | some st =>
      if matMaxAbs D nItems st.sdl < tol ∧ matMaxAbs 1 nItems (fun _ c => st.tdl c) < tol then
        some ⟨st.slop, st.threshold, gfun st.slop, some iter, none⟩
      else
        fit_go fuel (iter + 1) st.slop st.threshold
          (some (max (matMaxAbs D nItems st.sdl) (matMaxAbs 1 nItems fun _ c => st.tdl c)))

/-- Source `Mirt.fit`: run up to `max_iter` EM iterations from the initial
parameters.  `none` models an uncaught exception escaping `fit`. -/
def fit (maxIter : ℕ) (slop0 : Mat) (threshold0 : ℕ → ℚ) : Option FitOutcome :=
  fit_go D nNodes nItems comb solve pfun estep theta gfun tol maxIter 0 slop0 threshold0 none

/-- The parameter trajectory: the pair `(slop, threshold)` after `k`
successful EM iterations starting from the given parameters. -/
def trajFrom : ℕ → Mat → (ℕ → ℚ) → Option (Mat × (ℕ → ℚ))
  | 0, slop, threshold => some (slop, threshold)
  | k + 1, slop, threshold =>
    match fitStep D nNodes nItems comb solve pfun estep theta slop threshold with
    | none => none
    | some st => trajFrom k st.slop st.threshold

/-- The convergence-test quantities of iteration `k` (0-based): the maximum
absolute slope delta and the maximum absolute threshold delta of the M-step
taken from the `k`-th trajectory point. -/
def stepDeltas (k : ℕ) (slop : Mat) (threshold : ℕ → ℚ) : Option (ℚ × ℚ) :=
  match trajFrom D nNodes nItems comb solve pfun estep theta k slop threshold with
  | none => none
  | some pr =>
    match fitStep D nNodes nItems comb solve pfun estep theta pr.1 pr.2 with
    | none => none
    | some st =>
      some (matMaxAbs D nItems st.sdl, matMaxAbs 1 nItems fun _ c => st.tdl c)

end FitDriver

section FitThm

variable (D nNodes nItems : ℕ) (comb : List (ℕ × ℕ)) (solve : Solver)
  (pfun : Mat → (ℕ → ℚ) → Mat) (estep : Mat → Mat × Mat) (theta : Mat)
  (gfun : Mat → Mat) (tol : ℚ)

/-- Taking one successful EM step shifts the trajectory by one. -/
theorem trajFrom_succ (slop : Mat) (threshold : ℕ → ℚ) (st : MState)
    (hs : fitStep D nNodes nItems comb solve pfun estep theta slop threshold = some st)
    (k : ℕ) :
    trajFrom D nNodes nItems comb solve pfun estep theta (k + 1) slop threshold
      = trajFrom D nNodes nItems comb solve pfun estep theta k st.slop st.threshold := by
  simp only [trajFrom, hs]

/-- Taking one successful EM step shifts the delta sequence by one. -/
theorem stepDeltas_succ (slop : Mat) (threshold : ℕ → ℚ) (st : MState)
    (hs : fitStep D nNodes nItems comb solve pfun estep theta slop threshold = some st)
    (k : ℕ) :
    stepDeltas D nNodes nItems comb solve pfun estep theta (k + 1) slop threshold
      = stepDeltas D nNodes nItems comb solve pfun estep theta k st.slop st.threshold := by
  unfold stepDeltas
  rw [trajFrom_succ D nNodes nItems comb solve pfun estep theta slop threshold st hs k]

/-- If iteration `k` is the first whose two delta maxima are both strictly
below `tol`, the driver loop returns the post-step estimate with the
iteration index `iter + k`. -/
theorem fit_go_conv :
    ∀ (k fuel iter : ℕ) (slop : Mat) (threshold : ℕ → ℚ) (last : Option ℚ),
      k < fuel →
      (∀ j < k, ∃ d,
        stepDeltas D nNodes nItems comb solve pfun estep theta j slop threshold = some d ∧
          ¬(d.1 < tol ∧ d.2 < tol)) →
      ∀ d, stepDeltas D nNodes nItems comb solve pfun estep theta k slop threshold = some d →
        d.1 < tol → d.2 < tol →
      ∃ sl2 th2,
        trajFrom D nNodes nItems comb solve pfun estep theta (k + 1) slop threshold
          = some (sl2, th2) ∧
        fit_go D nNodes nItems comb solve pfun estep theta gfun tol fuel iter slop threshold
            last
          = some ⟨sl2, th2, gfun sl2, some (iter + k), none⟩ := by
  intro k
  induction k with
  | zero =>
    intro fuel iter slop threshold last hk _ d hd h1 h2
    obtain ⟨f, rfl⟩ : ∃ f, fuel = f + 1 := ⟨fuel - 1, by omega⟩
    cases hs : fitStep D nNodes nItems comb solve pfun estep theta slop threshold with
    | none =>
      simp only [stepDeltas, trajFrom, hs] at hd
      exact Option.noConfusion hd
    | some st =>
      simp only [stepDeltas, trajFrom, hs, Option.some.injEq] at hd
      subst hd
      refine ⟨st.slop, st.threshold, ?_, ?_⟩
      · simp only [trajFrom, hs]
      · simp only [fit_go, hs]
        rw [if_pos ⟨h1, h2⟩, Nat.add_zero]
  | succ k ih =>
    intro fuel iter slop threshold last hk hprev d hd h1 h2
    obtain ⟨f, rfl⟩ : ∃ f, fuel = f + 1 := ⟨fuel - 1, by omega⟩
    obtain ⟨d0, hd0, hnc⟩ := hprev 0 (by omega)
    cases hs : fitStep D nNodes nItems comb solve pfun estep theta slop threshold with
    | none =>
      simp only [stepDeltas, trajFrom, hs] at hd0
      exact Option.noConfusion hd0
    | some st =>
      simp only [stepDeltas, trajFrom, hs, Option.some.injEq] at hd0
      subst hd0
      rw [stepDeltas_succ D nNodes nItems comb solve pfun estep theta slop threshold st hs k]
        at hd
      have hprev2 : ∀ j < k, ∃ d2,
          stepDeltas D nNodes nItems comb solve pfun estep theta j st.slop st.threshold
            = some d2 ∧ ¬(d2.1 < tol ∧ d2.2 < tol) := by
        intro j hj
        have := hprev (j + 1) (by omega)
        rwa [stepDeltas_succ D nNodes nItems comb solve pfun estep theta slop threshold st hs j]
          at this
      obtain ⟨sl2, th2, htraj, hfit⟩ :=
        ih f (iter + 1) st.slop st.threshold
          (some (max (matMaxAbs D nItems st.sdl) (matMaxAbs 1 nItems fun _ c => st.tdl c)))
          (by omega) hprev2 d hd h1 h2
      refine ⟨sl2, th2, ?_, ?_⟩
      · rw [trajFrom_succ D nNodes nItems comb solve pfun estep theta slop threshold st hs
          (k + 1)]
        exact htraj
      · simp only [fit_go, hs]
        rw [if_neg hnc]
        have harith : iter + 1 + k = iter + (k + 1) := by omega
        rw [harith] at hfit
        exact hfit

/-- If no iteration among the `fuel` remaining ones meets the tolerance, the
driver loop exhausts them and returns the final estimate together with the
warning value `max` of the last iteration's two delta maxima. -/
theorem fit_go_warn :
    ∀ (fuel iter : ℕ) (slop : Mat) (threshold : ℕ → ℚ) (last : Option ℚ),
      1 ≤ fuel →
      (∀ j < fuel, ∃ d,
        stepDeltas D nNodes nItems comb solve pfun estep theta j slop threshold = some d ∧
          ¬(d.1 < tol ∧ d.2 < tol)) →
      ∃ sl2 th2 d,
        trajFrom D nNodes nItems comb solve pfun estep theta fuel slop threshold
          = some (sl2, th2) ∧
        stepDeltas D nNodes nItems comb solve pfun estep theta (fuel - 1) slop threshold
          = some d ∧
        fit_go D nNodes nItems comb solve pfun estep theta gfun tol fuel iter slop threshold
            last
          = some ⟨sl2, th2, gfun sl2, none, some (max d.1 d.2)⟩ := by
  intro fuel
  induction fuel with
  | zero => intro iter slop threshold last h; omega
  | succ f ih =>
    intro iter slop threshold last _ hall
    obtain ⟨d0, hd0, hnc⟩ := hall 0 (by omega)
    cases hs : fitStep D nNodes nItems comb solve pfun estep theta slop threshold with
    | none =>
      simp only [stepDeltas, trajFrom, hs] at hd0
      exact Option.noConfusion hd0
    | some st =>
      simp only [stepDeltas, trajFrom, hs, Option.some.injEq] at hd0
      subst hd0
      cases f with
      | zero =>
        refine ⟨st.slop, st.threshold,
          (matMaxAbs D nItems st.sdl, matMaxAbs 1 nItems fun _ c => st.tdl c), ?_, ?_, ?_⟩
        · simp only [trajFrom, hs]
        · simp only [stepDeltas, trajFrom, hs]
        · simp only [fit_go, hs]
          rw [if_neg hnc]
      | succ g =>
        have hall2 : ∀ j < g + 1, ∃ d2,
            stepDeltas D nNodes nItems comb solve pfun estep theta j st.slop st.threshold
              = some d2 ∧ ¬(d2.1 < tol ∧ d2.2 < tol) := by
          intro j hj
          have := hall (j + 1) (by omega)
          rwa [stepDeltas_succ D nNodes nItems comb solve pfun estep theta slop threshold st
            hs j] at this
        obtain ⟨sl2, th2, d, htraj, hd, hfit⟩ :=
          ih (iter + 1) st.slop st.threshold
            (some (max (matMaxAbs D nItems st.sdl) (matMaxAbs 1 nItems fun _ c => st.tdl c)))
            (by omega) hall2
        refine ⟨sl2, th2, d, ?_, ?_, ?_⟩
        · rw [trajFrom_succ D nNodes nItems comb solve pfun estep theta slop threshold st hs
            (g + 1)]
          exact htraj
        · rw [show g + 1 + 1 - 1 = g + 1 from rfl,
            stepDeltas_succ D nNodes nItems comb solve pfun estep theta slop threshold st hs g]
          exact hd
        · simp only [fit_go, hs]
          rw [if_neg hnc]
          exact hfit

/-- C6: the EM driver stops and returns the estimate exactly when, after an
M-step, both the maximum absolute slope delta and the maximum absolute
threshold delta are strictly below `tol` (printing the iteration index);
when all `max_iter` iterations finish without this, it emits the non-fatal
warning whose value is the largest remaining delta magnitude
(`max` of the two delta maxima of the last iteration) and still returns the
current estimate `(slop, threshold, loadings)`. -/
theorem c6_convergence_and_warning (maxIter : ℕ) (slop0 : Mat) (threshold0 : ℕ → ℚ) :
    (∀ k < maxIter,
      (∀ j < k, ∃ d,
        stepDeltas D nNodes nItems comb solve pfun estep theta j slop0 threshold0 = some d ∧
          ¬(d.1 < tol ∧ d.2 < tol)) →
      ∀ d, stepDeltas D nNodes nItems comb solve pfun estep theta k slop0 threshold0
          = some d →
        d.1 < tol → d.2 < tol →
        ∃ sl th,
          trajFrom D nNodes nItems comb solve pfun estep theta (k + 1) slop0 threshold0
            = some (sl, th) ∧
          fit D nNodes nItems comb solve pfun estep theta gfun tol maxIter slop0 threshold0
            = some ⟨sl, th, gfun sl, some k, none⟩) ∧
    (1 ≤ maxIter →
      (∀ j < maxIter, ∃ d,
        stepDeltas D nNodes nItems comb solve pfun estep theta j slop0 threshold0 = some d ∧
          ¬(d.1 < tol ∧ d.2 < tol)) →
      ∃ sl th d,
        trajFrom D nNodes nItems comb solve pfun estep theta maxIter slop0 threshold0
          = some (sl, th) ∧
        stepDeltas D nNodes nItems comb solve pfun estep theta (maxIter - 1) slop0 threshold0
          = some d ∧
        fit D nNodes nItems comb solve pfun estep theta gfun tol maxIter slop0 threshold0
          = some ⟨sl, th, gfun sl, none, some (max d.1 d.2)⟩) := by
  constructor
  · intro k hk hprev d hd h1 h2
    have h := fit_go_conv D nNodes nItems comb solve pfun estep theta gfun tol k maxIter 0
      slop0 threshold0 none hk hprev d hd h1 h2
    simpa [fit] using h
  · intro h1 hall
    exact fit_go_warn D nNodes nItems comb solve pfun estep theta gfun tol maxIter 0
      slop0 threshold0 none h1 hall

/-- If the trajectory reaches iteration `k` without converging and the
M-step of iteration `k` raises, the driver loop raises. -/
theorem fit_go_abort :
    ∀ (k fuel iter : ℕ) (slop : Mat) (threshold : ℕ → ℚ) (last : Option ℚ)
      (sl2 : Mat) (th2 : ℕ → ℚ),
      k < fuel →
      (∀ j < k, ∃ d,
        stepDeltas D nNodes nItems comb solve pfun estep theta j slop threshold = some d ∧
          ¬(d.1 < tol ∧ d.2 < tol)) →
      trajFrom D nNodes nItems comb solve pfun estep theta k slop threshold = some (sl2, th2) →
      fitStep D nNodes nItems comb solve pfun estep theta sl2 th2 = none →
      fit_go D nNodes nItems comb solve pfun estep theta gfun tol fuel iter slop threshold last
        = none := by
  intro k
  induction k with
  | zero =>
    intro fuel iter slop threshold last sl2 th2 hk _ htraj hfail
    obtain ⟨f, rfl⟩ : ∃ f, fuel = f + 1 := ⟨fuel - 1, by omega⟩
    simp only [trajFrom, Option.some.injEq, Prod.mk.injEq] at htraj
    obtain ⟨h1, h2⟩ := htraj
    subst h1; subst h2
    simp only [fit_go, hfail]
  | succ k ih =>
    intro fuel iter slop threshold last sl2 th2 hk hprev htraj hfail
    obtain ⟨f, rfl⟩ : ∃ f, fuel = f + 1 := ⟨fuel - 1, by omega⟩
    obtain ⟨d0, hd0, hnc⟩ := hprev 0 (by omega)
    cases hs : fitStep D nNodes nItems comb solve pfun estep theta slop threshold with
    | none =>
      simp only [stepDeltas, trajFrom, hs] at hd0
      exact Option.noConfusion hd0
    | some st =>
      simp only [stepDeltas, trajFrom, hs, Option.some.injEq] at hd0
      subst hd0
      rw [trajFrom_succ D nNodes nItems comb solve pfun estep theta slop threshold st hs k]
        at htraj
      have hprev2 : ∀ j < k, ∃ d2,
          stepDeltas D nNodes nItems comb solve pfun estep theta j st.slop st.threshold
            = some d2 ∧ ¬(d2.1 < tol ∧ d2.2 < tol) := by
        intro j hj
        have := hprev (j + 1) (by omega)
        rwa [stepDeltas_succ D nNodes nItems comb solve pfun estep theta slop threshold st hs j]
          at this
      have h := ih f (iter + 1) st.slop st.threshold
        (some (max (matMaxAbs D nItems st.sdl) (matMaxAbs 1 nItems fun _ c => st.tdl c)))
        sl2 th2 (by omega) hprev2 htraj hfail
      simp only [fit_go, hs]
      rw [if_neg hnc]
      exact h

/-- C7: a raised numerical error from the per-item linear solve is never
caught: if the solver raises at any single item, the whole M-step raises
(no per-item skipping), and if this happens at the M-step of any reached
iteration, the whole `fit` run raises. -/
theorem c7_singular_solve_propagates (maxIter : ℕ) (slop0 : Mat) (threshold0 : ℕ → ℚ)
    (full right : Mat) (s : Mat) (thr : ℕ → ℚ) (p : Mat) :
    (∀ i < nItems,
      solve (D + 1 - (D - 1 - (nItems - 1 - i)))
          (get_hess D comb (fake_hess D nNodes theta full p) i (D - 1 - (nItems - 1 - i)))
          (get_jac D (jac_all nNodes theta (dp_mat full right p)) i (D - 1 - (nItems - 1 - i)))
        = none →
      m_step D nNodes nItems comb solve full right s thr theta p = none) ∧
    (∀ k, k < maxIter → ∀ (sl : Mat) (th : ℕ → ℚ),
      (∀ j < k, ∃ d,
        stepDeltas D nNodes nItems comb solve pfun estep theta j slop0 threshold0 = some d ∧
          ¬(d.1 < tol ∧ d.2 < tol)) →
      trajFrom D nNodes nItems comb solve pfun estep theta k slop0 threshold0 = some (sl, th) →
      fitStep D nNodes nItems comb solve pfun estep theta sl th = none →
      fit D nNodes nItems comb solve pfun estep theta gfun tol maxIter slop0 threshold0
        = none) := by
  constructor
  · intro i hi hnone
    simp only [m_step]
    exact m_step_loop_fail D comb solve _ _ nItems (D - 1) _ i hi hnone
  · intro k hk sl th hprev htraj hfail
    exact fit_go_abort D nNodes nItems comb solve pfun estep theta gfun tol k maxIter 0
      slop0 threshold0 none sl th hk hprev htraj hfail

/-- Whatever `fit_go` returns carries the rotated loadings of its final
slope and exactly one of the two diagnostics. -/
theorem fit_go_output :
    ∀ (fuel iter : ℕ) (slop : Mat) (threshold : ℕ → ℚ) (last : Option ℚ) (out : FitOutcome),
      fit_go D nNodes nItems comb solve pfun estep theta gfun tol fuel iter slop threshold last
        = some out →
      out.loadings = gfun out.slop ∧
      ((∃ k, out.printed = some k ∧ out.warned = none) ∨
        (out.printed = none ∧ ∃ v, out.warned = some v)) := by
  intro fuel
  induction fuel with
  | zero =>
    intro iter slop threshold last out h
    cases last with
    | none =>
      simp only [fit_go] at h
      exact Option.noConfusion h
    | some v =>
      simp only [fit_go, Option.some.injEq] at h
      subst h
      exact ⟨rfl, Or.inr ⟨rfl, v, rfl⟩⟩
  | succ f ih =>
    intro iter slop threshold last out h
    simp only [fit_go] at h
    cases hs : fitStep D nNodes nItems comb solve pfun estep theta slop threshold with
    | none =>
      simp only [hs] at h
      exact Option.noConfusion h
    | some st =>
      simp only [hs] at h
      by_cases hc : matMaxAbs D nItems st.sdl < tol ∧
          matMaxAbs 1 nItems (fun _ c => st.tdl c) < tol
      · rw [if_pos hc] at h
        injection h with h
        subst h
        exact ⟨rfl, Or.inl ⟨iter, rfl, rfl⟩⟩
      · rw [if_neg hc] at h
        exact ih (iter + 1) st.slop st.threshold _ out h

/-- C8 (amended): the returned value of `Mirt.fit` is exactly the triple
`(slop, threshold, loadings)` with `loadings` derived from the final slope;
convergence information is not part of the return value — the iteration
index is only printed on the converged exit and the final max delta is only
carried by the warning on the non-converged exit. -/
theorem c8_fit_returns_triple_only (maxIter : ℕ) (slop0 : Mat) (threshold0 : ℕ → ℚ)
    (out : FitOutcome)
    (h : fit D nNodes nItems comb solve pfun estep theta gfun tol maxIter slop0 threshold0
      = some out) :
    out.loadings = gfun out.slop ∧
    ((∃ k, out.printed = some k ∧ out.warned = none) ∨
      (out.printed = none ∧ ∃ v, out.warned = some v)) :=
  fit_go_output D nNodes nItems comb solve pfun estep theta gfun tol maxIter 0 slop0
    threshold0 none out h

end FitThm

/-- An element of one inner block of the interaction table has the block's
first component and increasing components. -/
theorem mem_theta_comb_inner {D a : ℕ} {x : ℕ × ℕ}
    (hx : x ∈ (List.range D).filterMap fun b => if a < b then some (a, b) else none) :
    x.1 = a ∧ x.1 < x.2 := by
  simp only [List.mem_filterMap, List.mem_range] at hx
  obtain ⟨b, _, hif⟩ := hx
  by_cases h : a < b
  · rw [if_pos h] at hif
    cases hif
    exact ⟨rfl, h⟩
  · rw [if_neg h] at hif
    exact Option.noConfusion hif

/-- Every interaction-table pair is strictly increasing. -/
theorem get_theta_comb_mem {D : ℕ} {x : ℕ × ℕ} (hx : x ∈ get_theta_comb D) :
    x.1 < x.2 := by
  simp only [get_theta_comb, List.mem_flatMap, List.mem_range] at hx
  obtain ⟨a, _, hmem⟩ := hx
  exact (mem_theta_comb_inner hmem).2

/-- The interaction table has no duplicate pair. -/
theorem get_theta_comb_nodup (D : ℕ) : (get_theta_comb D).Nodup := by
  rw [get_theta_comb, List.nodup_flatMap]
  constructor
  · intro a _
    refine (List.nodup_range D).filterMap ?_
    intro b b2 x hx1 hx2
    rw [Option.mem_def] at hx1 hx2
    by_cases h : a < b
    · rw [if_pos h] at hx1
      by_cases h2 : a < b2
      · rw [if_pos h2] at hx2
        injection hx1 with e1
        injection hx2 with e2
        have e3 : (a, b) = (a, b2) := e1.trans e2.symm
        injection e3 with _ e4
      · rw [if_neg h2] at hx2
        exact Option.noConfusion hx2
    · rw [if_neg h] at hx1
      exact Option.noConfusion hx1
  · refine (List.nodup_range D).imp ?_
    intro a1 a2 hne
    intro x hx1 hx2
    exact hne ((mem_theta_comb_inner hx1).1.symm.trans (mem_theta_comb_inner hx2).1)

/-- How many leading pairs of the interaction table the filling loop writes
before the `break`: the count of pairs up to (excluding) the first one whose
target indices fall outside the `ps × ps` block. -/
def fill_count (ps : ℕ) : List (ℕ × ℕ) → ℕ
  | [] => 0
  | (a, b) :: rest => if a + 1 < ps ∧ b + 1 < ps then fill_count ps rest + 1 else 0

/-- A position written by no pair of the list is left unchanged by the
filling loop. -/
theorem fill_comb_frame (ps : ℕ) (vals : ℕ → ℚ) :
    ∀ (l : List (ℕ × ℕ)) (k0 : ℕ) (h : Mat) (p q : ℕ),
      (∀ x ∈ l, ¬((p = x.1 + 1 ∧ q = x.2 + 1) ∨ (p = x.2 + 1 ∧ q = x.1 + 1))) →
      fill_comb ps vals l k0 h p q = h p q := by
  intro l
  induction l with
  | nil => intro k0 h p q _; rfl
  | cons ab rest ih =>
    intro k0 h p q hnot
    obtain ⟨a, b⟩ := ab
    simp only [fill_comb]
    by_cases hg : a + 1 < ps ∧ b + 1 < ps
    · rw [if_pos hg]
      rw [ih (k0 + 1) _ p q fun x hx => hnot x (List.mem_cons_of_mem _ hx)]
      rw [if_neg]
      have := hnot (a, b) (List.mem_cons_self _ _)
      simpa using this
    · rw [if_neg hg]

/-- An element found by `get?` is a member of the list. -/
theorem mem_of_get? {l : List (ℕ × ℕ)} {n : ℕ} {x : ℕ × ℕ}
    (h : l.get? n = some x) : x ∈ l := by
  obtain ⟨hlen, hget⟩ := List.get?_eq_some.mp h
  rw [← hget]
  exact List.get_mem l n hlen

/-- Characterization of the filling loop at the pair with table index `k`:
pairs before the break point receive the flat value with offset `k0 + k`
(symmetrically); pairs at or past the break point leave the block
unchanged at their positions. -/
theorem fill_comb_get (ps : ℕ) (vals : ℕ → ℚ) :
    ∀ (l : List (ℕ × ℕ)) (k0 : ℕ) (h : Mat) (k a b : ℕ),
      l.get? k = some (a, b) → l.Nodup → (∀ x ∈ l, x.1 < x.2) →
      (k < fill_count ps l →
        fill_comb ps vals l k0 h (a + 1) (b + 1) = vals (k0 + k) ∧
        fill_comb ps vals l k0 h (b + 1) (a + 1) = vals (k0 + k)) ∧
      (fill_count ps l ≤ k →
        fill_comb ps vals l k0 h (a + 1) (b + 1) = h (a + 1) (b + 1) ∧
        fill_comb ps vals l k0 h (b + 1) (a + 1) = h (b + 1) (a + 1)) := by
  intro l
  induction l with
  | nil => intro k0 h k a b hk _ _; exact Option.noConfusion hk
  | cons ab rest ih =>
    intro k0 h k a b hk hnd hlt
    obtain ⟨a0, b0⟩ := ab
    have hab0 : a0 < b0 := hlt (a0, b0) (List.mem_cons_self _ _)
    by_cases hg : a0 + 1 < ps ∧ b0 + 1 < ps
    · cases k with
      | zero =>
        simp only [List.get?, Option.some.injEq, Prod.mk.injEq] at hk
        obtain ⟨hka, hkb⟩ := hk
        have hnotin : (a0, b0) ∉ rest := (List.nodup_cons.mp hnd).1
        constructor
        · intro _
          have hframe : ∀ x ∈ rest,
              ¬((a + 1 = x.1 + 1 ∧ b + 1 = x.2 + 1) ∨
                (a + 1 = x.2 + 1 ∧ b + 1 = x.1 + 1)) := by
            intro x hx
            obtain ⟨x1, x2⟩ := x
            have hxlt : x1 < x2 := hlt (x1, x2) (List.mem_cons_of_mem _ hx)
            rintro (⟨e1, e2⟩ | ⟨e1, e2⟩)
            · exact hnotin (by
                rw [show a0 = x1 by omega, show b0 = x2 by omega]
                exact hx)
            · omega
          have hframe2 : ∀ x ∈ rest,
              ¬((b + 1 = x.1 + 1 ∧ a + 1 = x.2 + 1) ∨
                (b + 1 = x.2 + 1 ∧ a + 1 = x.1 + 1)) := by
            intro x hx
            obtain ⟨x1, x2⟩ := x
            have hxlt : x1 < x2 := hlt (x1, x2) (List.mem_cons_of_mem _ hx)
            rintro (⟨e1, e2⟩ | ⟨e1, e2⟩)
            · omega
            · exact hnotin (by
                rw [show a0 = x1 by omega, show b0 = x2 by omega]
                exact hx)
          refine ⟨?_, ?_⟩
          · simp only [fill_comb, if_pos hg]
            rw [fill_comb_frame ps vals rest (k0 + 1) _ _ _ hframe]
            have hcond : (a + 1 = a0 + 1 ∧ b + 1 = b0 + 1) ∨
                (a + 1 = b0 + 1 ∧ b + 1 = a0 + 1) := Or.inl ⟨by omega, by omega⟩
            rw [if_pos hcond, Nat.add_zero]
          · simp only [fill_comb, if_pos hg]
            rw [fill_comb_frame ps vals rest (k0 + 1) _ _ _ hframe2]
            have hcond : (b + 1 = a0 + 1 ∧ a + 1 = b0 + 1) ∨
                (b + 1 = b0 + 1 ∧ a + 1 = a0 + 1) := Or.inr ⟨by omega, by omega⟩
            rw [if_pos hcond, Nat.add_zero]
        · intro hle
          simp only [fill_count, if_pos hg] at hle
          omega
      | succ k2 =>
        simp only [List.get?] at hk
        have hmem : (a, b) ∈ rest := mem_of_get? hk
        have hab : a < b := hlt (a, b) (List.mem_cons_of_mem _ hmem)
        have hnotin : (a0, b0) ∉ rest := (List.nodup_cons.mp hnd).1
        have hne : ¬((a + 1 = a0 + 1 ∧ b + 1 = b0 + 1) ∨
            (a + 1 = b0 + 1 ∧ b + 1 = a0 + 1)) := by
          rintro (⟨e1, e2⟩ | ⟨e1, e2⟩)
          · exact hnotin (by
              rw [show a0 = a by omega, show b0 = b by omega]
              exact hmem)
          · omega
        have hne2 : ¬((b + 1 = a0 + 1 ∧ a + 1 = b0 + 1) ∨
            (b + 1 = b0 + 1 ∧ a + 1 = a0 + 1)) := by
          rintro (⟨e1, e2⟩ | ⟨e1, e2⟩)
          · omega
          · exact hnotin (by
              rw [show a0 = a by omega, show b0 = b by omega]
              exact hmem)
        obtain ⟨ih1, ih2⟩ := ih (k0 + 1) (fun p q =>
            if (p = a0 + 1 ∧ q = b0 + 1) ∨ (p = b0 + 1 ∧ q = a0 + 1) then vals k0
            else h p q) k2 a b hk (List.nodup_cons.mp hnd).2
            (fun x hx => hlt x (List.mem_cons_of_mem _ hx))
        constructor
        · intro hklt
          simp only [fill_count, if_pos hg] at hklt
          obtain ⟨e1, e2⟩ := ih1 (by omega)
          have harith : k0 + 1 + k2 = k0 + (k2 + 1) := by omega
          rw [harith] at e1 e2
          refine ⟨?_, ?_⟩
          · simp only [fill_comb, if_pos hg]
            exact e1
          · simp only [fill_comb, if_pos hg]
            exact e2
        · intro hkge
          simp only [fill_count, if_pos hg] at hkge
          obtain ⟨e1, e2⟩ := ih2 (by omega)
          refine ⟨?_, ?_⟩
          · simp only [fill_comb, if_pos hg]
            rw [e1]
            simp only [if_neg hne]
          · simp only [fill_comb, if_pos hg]
            rw [e2]
            simp only [if_neg hne2]
    · constructor
      · intro hklt
        simp only [fill_count, if_neg hg] at hklt
        omega
      · intro _
        refine ⟨?_, ?_⟩ <;> simp only [fill_comb, if_neg hg]

/-- C2 (amended): the interaction entries of the assembled block are filled
in table order, symmetrically, from flat column `2*dim_size + 1 + k`, but
only for the pairs *before* the break point (the first pair whose target
indices fall outside the block stops the loop); every pair at or past the
break point — including later pairs whose indices would fit — leaves its
positions at 0. -/
theorem c2_interaction_fill_prefix (D : ℕ) (hessVals : Mat) (i fix k a b : ℕ)
    (hk : (get_theta_comb D).get? k = some (a, b)) :
    (k < fill_count (D + 1 - fix) (get_theta_comb D) →
      get_hess D (get_theta_comb D) hessVals i fix (a + 1) (b + 1)
        = hessVals i (D + 1 + D + k) ∧
      get_hess D (get_theta_comb D) hessVals i fix (b + 1) (a + 1)
        = hessVals i (D + 1 + D + k)) ∧
    (fill_count (D + 1 - fix) (get_theta_comb D) ≤ k →
      get_hess D (get_theta_comb D) hessVals i fix (a + 1) (b + 1) = 0 ∧
      get_hess D (get_theta_comb D) hessVals i fix (b + 1) (a + 1) = 0) := by
  have hab : a < b := get_theta_comb_mem (x := (a, b)) (mem_of_get? hk)
  obtain ⟨h1, h2⟩ := fill_comb_get (D + 1 - fix) (fun k2 => hessVals i (D + 1 + D + k2))
    (get_theta_comb D) 0 (hess_base D hessVals i fix) k a b hk
    (get_theta_comb_nodup D) (fun x hx => get_theta_comb_mem hx)
  constructor
  · intro hklt
    obtain ⟨e1, e2⟩ := h1 hklt
    rw [Nat.zero_add] at e1 e2
    exact ⟨e1, e2⟩
  · intro hkge
    obtain ⟨e1, e2⟩ := h2 hkge
    refine ⟨?_, ?_⟩
    · unfold get_hess
      rw [e1]
      simp only [hess_base]
      rw [if_neg (by omega), if_neg (by omega), if_neg (by omega)]
    · unfold get_hess
      rw [e2]
      simp only [hess_base]
      rw [if_neg (by omega), if_neg (by omega), if_neg (by omega)]

/-- Indexing a mapped range list. -/
theorem getD_map_range (D c : ℕ) (f : ℕ → ℚ) (hc : c < D) :
    ((List.range D).map f).getD c 0 = f c := by
  rw [List.getD_eq_getElem?_getD, List.getElem?_map, List.getElem?_range hc]
  rfl

/-- The extended design matrix as the spec words it: per node row, a ones
column, then the node values, then the node values squared elementwise,
then one column per interaction-table pair holding the elementwise product
of the two node columns, in exactly that order. -/
def design_row_spec (D : ℕ) (theta : Mat) (r : ℕ) : List ℚ :=
  1 :: (((List.range D).map fun d => theta r d) ++
    ((List.range D).map fun d => (theta r d) ^ 2) ++
    ((get_theta_comb D).map fun pr => theta r pr.1 * theta r pr.2))

/-- The flat-column indexing of `Mirt._get_theta_mat` agrees with the
spec's column-block description at every in-range column. -/
theorem get_theta_mat_eq_spec (D : ℕ) (theta : Mat) (r c : ℕ)
    (hc : c < 1 + D + D + (get_theta_comb D).length) :
    get_theta_mat D theta r c = (design_row_spec D theta r).getD c 0 := by
  unfold get_theta_mat design_row_spec
  by_cases h0 : c = 0
  · subst h0
    rw [if_pos rfl, List.getD_cons_zero]
  · obtain ⟨c1, rfl⟩ : ∃ c1, c = c1 + 1 := ⟨c - 1, by omega⟩
    rw [if_neg h0, List.getD_cons_succ]
    by_cases h1 : c1 < D
    · rw [if_pos (by omega : c1 + 1 ≤ D)]
      rw [List.getD_append _ _ _ _
        (by simp only [List.length_append, List.length_map, List.length_range]; omega)]
      rw [List.getD_append _ _ _ _
        (by simp only [List.length_map, List.length_range]; omega)]
      rw [getD_map_range D c1 _ h1]
      rfl
    · by_cases h2 : c1 < 2 * D
      · rw [if_neg (by omega), if_pos (by omega : c1 + 1 ≤ 2 * D)]
        rw [List.getD_append _ _ _ _
          (by simp only [List.length_append, List.length_map, List.length_range]; omega)]
        rw [List.getD_append_right _ _ _ _
          (by simp only [List.length_map, List.length_range]; omega)]
        rw [show ((List.range D).map fun d => theta r d).length = D by
          simp only [List.length_map, List.length_range]]
        rw [getD_map_range D (c1 - D) _ (by omega)]
        rw [show c1 + 1 - D - 1 = c1 - D by omega]
      · rw [if_neg (by omega), if_neg (by omega)]
        rw [List.getD_append_right _ _ _ _
          (by simp only [List.length_append, List.length_map, List.length_range]; omega)]
        rw [show (((List.range D).map fun d => theta r d) ++
            ((List.range D).map fun d => (theta r d) ^ 2)).length = 2 * D by
          simp only [List.length_append, List.length_map, List.length_range]; omega]
        rw [show c1 + 1 - 2 * D - 1 = c1 - 2 * D by omega]
        have hbound : c1 - 2 * D < (get_theta_comb D).length := by omega
        have hpr : (get_theta_comb D).get? (c1 - 2 * D)
            = some ((get_theta_comb D).get ⟨c1 - 2 * D, hbound⟩) :=
          List.get?_eq_get hbound
        rw [hpr]
        rw [List.getD_eq_getElem?_getD, List.getElem?_map, ← List.get?_eq_getElem?, hpr]
        rfl

/-- C4: the M-step computes `dp = right_dis - full_dis * p_val` and
`ddp = full_dis * p_val * (1 - p_val)` elementwise; the stacked Jacobian
has the node-sum of `dp` as row 0 and the node-matrix-transpose times `dp`
as rows `1..dim_size`; and the Hessian-values matrix is the negated product
of `ddp`-transpose with the extended design matrix whose columns are, in
order, a ones column, the node values, the node values squared, and the
pairwise node products per interaction-table pair. -/
theorem c4_m_step_matrices (D nNodes : ℕ) (theta full right p : Mat) :
    (∀ node j, dp_mat full right p node j
      = right node j - full node j * p node j) ∧
    (∀ node j, ddp_mat full p node j
      = full node j * p node j * (1 - p node j)) ∧
    (∀ j, jac_all nNodes theta (dp_mat full right p) 0 j
      = sumRange nNodes fun node => dp_mat full right p node j) ∧
    (∀ r j, 1 ≤ r → r ≤ D →
      jac_all nNodes theta (dp_mat full right p) r j
        = sumRange nNodes fun node => theta node (r - 1) * dp_mat full right p node j) ∧
    (∀ i c, c < 1 + D + D + (get_theta_comb D).length →
      fake_hess D nNodes theta full p i c
        = -(sumRange nNodes fun node =>
            ddp_mat full p node i * (design_row_spec D theta node).getD c 0)) := by
  refine ⟨fun node j => rfl, fun node j => rfl, fun j => by simp [jac_all],
    fun r j h1 h2 => ?_, fun i c hc => ?_⟩
  · simp only [jac_all]
    rw [if_neg (by omega)]
  · simp only [fake_hess]
    have heq : (fun node => ddp_mat full p node i * get_theta_mat D theta node c)
        = fun node => ddp_mat full p node i * (design_row_spec D theta node).getD c 0 := by
      funext node
      rw [get_theta_mat_eq_spec D theta node c hc]
    rw [heq]
    ring

/-- A matrix with explicit dimensions, for the constructor-level claims:
the functional matrix embedding cannot otherwise express a shape
mismatch. -/
structure MatD where
  rows : ℕ
  cols : ℕ
  entry : Mat

/-- `Mirt._fix_slop` at array level.  The loop visits rows
`dim_size - 1, .., 1`; its first (largest) row access raises `IndexError`
exactly when `dim_size ≥ 2` and the slope seed has at most `dim_size - 1`
rows.  Column counts cannot fail: the negative slice `slop[t][-t:]`
clamps. -/
def fix_slop_checked (D : ℕ) (m : MatD) : Except String MatD :=
  if 1 ≤ D - 1 ∧ m.rows ≤ D - 1 then Except.error "IndexError"
  else Except.ok { m with entry := fix_slop D m.cols m.entry }

/-- The two seed arrays stored by `Mirt.__init__` on the caller-seed path. -/
structure InitState where
  initSlop : MatD
  initThreshold : MatD

/-- Source `Mirt.__init__`, caller-seed path: copy the two seeds, apply
`_fix_slop` to the stored slope, store the threshold as-is.  No shape
validation of any kind is performed: neither seed is compared with
`dim_size` or with the score matrix's item count (which is why the item
count argument is unused), so the only construction-time failure is the
`IndexError` inside `_fix_slop`. -/
def mirt_init (D _nItems : ℕ) (initSlop initThreshold : MatD) :
    Except String InitState :=
  match fix_slop_checked D initSlop with
  | Except.error e => Except.error e
  | Except.ok s => Except.ok ⟨s, initThreshold⟩

/-- C9 counterexample: `dim_size = 1` with a 2-item score matrix, a
1×3 slope seed and a 1×2 threshold seed — the slope seed is inconsistent
with the item count, yet construction succeeds unchanged (modulo the
zeroing, a no-op for `dim_size = 1`): `__init__` validates nothing. -/
theorem c9_counterexample :
    mirt_init 1 2 ⟨1, 3, fun _ _ => 1⟩ ⟨1, 2, fun _ _ => 0⟩
      = Except.ok ⟨⟨1, 3, fix_slop 1 3 fun _ _ => 1⟩, ⟨1, 2, fun _ _ => 0⟩⟩ := rfl

/-- C9 (amended): construction performs no seed-shape validation.  It fails
only when `dim_size ≥ 2` and the slope seed has at most `dim_size - 1` rows
(the `IndexError` raised by the zeroing loop's first row access); every
other seed pair — including ones whose column counts disagree with the item
count or with each other — is stored successfully. -/
theorem c9_no_shape_validation (D nItems : ℕ) (initSlop initThreshold : MatD) :
    (1 ≤ D - 1 ∧ initSlop.rows ≤ D - 1 →
      mirt_init D nItems initSlop initThreshold = Except.error "IndexError") ∧
    (¬(1 ≤ D - 1 ∧ initSlop.rows ≤ D - 1) →
      mirt_init D nItems initSlop initThreshold = Except.ok
        ⟨{ initSlop with entry := fix_slop D initSlop.cols initSlop.entry },
          initThreshold⟩) := by
  constructor
  · intro h
    simp only [mirt_init, fix_slop_checked, if_pos h]
  · intro h
    simp only [mirt_init, fix_slop_checked, if_neg h]

/-- A heap of arrays: numpy arrays are mutable objects reached through
references, and `copy()` allocates a fresh one. -/
abbrev Heap : Type := ℕ → MatD

/-- In-place mutation of the array at one heap id. -/
def heapWrite (h : Heap) (id : ℕ) (m : MatD) : Heap :=
  fun j => if j = id then m else h j

/-- The two internal array references stored by the constructor. -/
structure MirtRefs where
  slopId : ℕ
  thrId : ℕ

/-- Source `Mirt.__init__` at heap level: `init_slop.copy()` and
`init_threshold.copy()` allocate fresh arrays at the next two free ids, and
`_fix_slop` then mutates the fresh slope array in place.  Returns the new
heap, the stored references, and the next free id. -/
def mirt_init_heap (D : ℕ) (h : Heap) (next callerSlop callerThr : ℕ) :
    Heap × MirtRefs × ℕ :=
  let h1 := heapWrite h next (h callerSlop)
  let h2 := heapWrite h1 (next + 1) (h1 callerThr)
  let s := h2 next
  let h3 := heapWrite h2 next { s with entry := fix_slop D s.cols s.entry }
  (h3, ⟨next, next + 1⟩, next + 2)

/-- One EM iteration of `Mirt.fit` at heap level: read the current slope
and threshold arrays, run the M-step, write the updated values back in
place to the same two arrays (`slop[.., i] -= ..` and
`threshold[:, i] -= ..` mutate, they do not rebind). -/
def em_iter_heap (D nNodes nItems : ℕ) (comb : List (ℕ × ℕ)) (solve : Solver)
    (pfun : Mat → (ℕ → ℚ) → Mat) (estep : Mat → Mat × Mat) (theta : Mat)
    (h : Heap) (refs : MirtRefs) : Option Heap :=
  match fitStep D nNodes nItems comb solve pfun estep theta (h refs.slopId).entry
      (fun c => (h refs.thrId).entry 0 c) with
  | none => none
  | some st =>
    some (heapWrite
      (heapWrite h refs.slopId { h refs.slopId with entry := st.slop })
      refs.thrId
      { h refs.thrId with entry := fun r c =>
          if r = 0 then st.threshold c else (h refs.thrId).entry r c })

/-- `k` successive EM iterations at heap level. -/
def em_iterate_heap (D nNodes nItems : ℕ) (comb : List (ℕ × ℕ)) (solve : Solver)
    (pfun : Mat → (ℕ → ℚ) → Mat) (estep : Mat → Mat × Mat) (theta : Mat) :
    ℕ → Heap → MirtRefs → Option Heap
  | 0, h, _ => some h
  | k + 1, h, refs =>
    match em_iter_heap D nNodes nItems comb solve pfun estep theta h refs with
    | none => none
    | some h2 => em_iterate_heap D nNodes nItems comb solve pfun estep theta k h2 refs

/-- EM iterations only mutate the two referenced arrays. -/
theorem em_iterate_heap_frame (D nNodes nItems : ℕ) (comb : List (ℕ × ℕ))
    (solve : Solver) (pfun : Mat → (ℕ → ℚ) → Mat) (estep : Mat → Mat × Mat)
    (theta : Mat) :
    ∀ (k : ℕ) (h : Heap) (refs : MirtRefs) (hFinal : Heap),
      em_iterate_heap D nNodes nItems comb solve pfun estep theta k h refs = some hFinal →
      ∀ id2, id2 ≠ refs.slopId → id2 ≠ refs.thrId → hFinal id2 = h id2 := by
  intro k
  induction k with
  | zero =>
    intro h refs hFinal he id2 _ _
    simp only [em_iterate_heap, Option.some.injEq] at he
    subst he
    rfl
  | succ k ih =>
    intro h refs hFinal he id2 h1 h2
    simp only [em_iterate_heap] at he
    cases hs : em_iter_heap D nNodes nItems comb solve pfun estep theta h refs with
    | none => rw [hs] at he; cases he
    | some hMid =>
      rw [hs] at he
      rw [ih hMid refs hFinal he id2 h1 h2]
      simp only [em_iter_heap] at hs
      cases hstep : fitStep D nNodes nItems comb solve pfun estep theta
          (h refs.slopId).entry (fun c => (h refs.thrId).entry 0 c) with
      | none => rw [hstep] at hs; cases hs
      | some st =>
        rw [hstep] at hs
        injection hs with hs
        subst hs
        simp only [heapWrite, if_neg h2, if_neg h1]

/-- C10: `__init__` stores copies (`init_slop.copy()`,
`init_threshold.copy()`), so for any caller array ids below the allocation
frontier, construction — including the identifiability zeroing, which
mutates only the fresh copy — and every subsequent in-place EM update leave
the caller's arrays exactly as they were. -/
theorem c10_caller_arrays_unchanged (D nNodes nItems : ℕ) (comb : List (ℕ × ℕ))
    (solve : Solver) (pfun : Mat → (ℕ → ℚ) → Mat) (estep : Mat → Mat × Mat)
    (theta : Mat) (h : Heap) (next callerSlop callerThr : ℕ)
    (hs : callerSlop < next) (ht : callerThr < next) (k : ℕ) (hFinal : Heap) :
    ((mirt_init_heap D h next callerSlop callerThr).1 callerSlop = h callerSlop ∧
      (mirt_init_heap D h next callerSlop callerThr).1 callerThr = h callerThr) ∧
    (em_iterate_heap D nNodes nItems comb solve pfun estep theta k
        (mirt_init_heap D h next callerSlop callerThr).1
        (mirt_init_heap D h next callerSlop callerThr).2.1 = some hFinal →
      hFinal callerSlop = h callerSlop ∧ hFinal callerThr = h callerThr) := by
  have hinit : ∀ id2, id2 ≠ next → id2 ≠ next + 1 →
      (mirt_init_heap D h next callerSlop callerThr).1 id2 = h id2 := by
    intro id2 h1 h2
    simp only [mirt_init_heap, heapWrite, if_neg h1, if_neg h2]
  constructor
  · exact ⟨hinit callerSlop (by omega) (by omega), hinit callerThr (by omega) (by omega)⟩
  · intro he
    have hrefs : (mirt_init_heap D h next callerSlop callerThr).2.1 = ⟨next, next + 1⟩ := rfl
    rw [hrefs] at he
    constructor
    · rw [em_iterate_heap_frame D nNodes nItems comb solve pfun estep theta k _ _ hFinal he
        callerSlop (by show callerSlop ≠ next; omega) (by show callerSlop ≠ next + 1; omega)]
      exact hinit callerSlop (by omega) (by omega)
    · rw [em_iterate_heap_frame D nNodes nItems comb solve pfun estep theta k _ _ hFinal he
        callerThr (by show callerThr ≠ next; omega) (by show callerThr ≠ next + 1; omega)]
      exact hinit callerThr (by omega) (by omega)

/-! Concrete instantiations used by the witness theorems below. -/

/-- All-zero matrix. -/
def exMatZero : Mat := fun _ _ => 0

/-- All-one matrix. -/
def exMatOne : Mat := fun _ _ => 1

/-- Zero threshold row. -/
def exThr : ℕ → ℚ := fun _ => 0

/-- A solver that always returns a zero delta. -/
def exSolve : Solver := fun _ _ _ => some fun _ => 0

/-- A solver that always raises. -/
def exSolveFail : Solver := fun _ _ _ => none

/-- A link collaborator returning the zero probability matrix. -/
def exPfun : Mat → (ℕ → ℚ) → Mat := fun _ _ => exMatZero

/-- An E-step collaborator returning zero expected counts. -/
def exEstep : Mat → Mat × Mat := fun _ => (exMatZero, exMatZero)

/-- An identity rotation collaborator. -/
def exGfun : Mat → Mat := fun m => m

/-- The M-step result of the 2-dimensional, 2-item witness run. -/
def exSt1 : MState :=
  (m_step 2 1 2 (get_theta_comb 2) exSolve exMatZero exMatZero (fix_slop 2 2 exMatOne)
    exThr exMatZero exMatZero).getD ⟨exMatZero, exThr, exMatZero, exThr⟩

/-- The M-step result of the 1-dimensional, 1-item witness run. -/
def exSt2 : MState :=
  (m_step 1 1 1 (get_theta_comb 1) exSolve exMatZero exMatZero exMatZero exThr exMatZero
    exMatZero).getD ⟨exMatZero, exThr, exMatZero, exThr⟩

/-- The outcome of the converging witness run of `fit` (tolerance 1). -/
def exOutA : FitOutcome :=
  (fit 1 1 1 (get_theta_comb 1) exSolve exPfun exEstep exMatZero exGfun 1 1 exMatZero
    exThr).getD ⟨exMatZero, exThr, exMatZero, none, none⟩

/-- C8 counterexample: two runs — tolerance 1 and tolerance 0, both with
`max_iter = 1` and identical collaborators — return pointwise-identical
`(slop, threshold, loadings)` triples, yet the first converges (iteration
index 0 printed, no warning) while the second does not (warning emitted,
nothing printed).  The returned value therefore carries no convergence
status: no converged flag, iteration count or final delta can be read off
the output. -/
theorem c8_counterexample :
    (fit 1 1 1 (get_theta_comb 1) exSolve exPfun exEstep exMatZero exGfun 1 1 exMatZero
        exThr).map FitOutcome.slop
      = (fit 1 1 1 (get_theta_comb 1) exSolve exPfun exEstep exMatZero exGfun 0 1 exMatZero
        exThr).map FitOutcome.slop ∧
    (fit 1 1 1 (get_theta_comb 1) exSolve exPfun exEstep exMatZero exGfun 1 1 exMatZero
        exThr).map FitOutcome.threshold
      = (fit 1 1 1 (get_theta_comb 1) exSolve exPfun exEstep exMatZero exGfun 0 1 exMatZero
        exThr).map FitOutcome.threshold ∧
    (fit 1 1 1 (get_theta_comb 1) exSolve exPfun exEstep exMatZero exGfun 1 1 exMatZero
        exThr).map FitOutcome.loadings
      = (fit 1 1 1 (get_theta_comb 1) exSolve exPfun exEstep exMatZero exGfun 0 1 exMatZero
        exThr).map FitOutcome.loadings ∧
    (fit 1 1 1 (get_theta_comb 1) exSolve exPfun exEstep exMatZero exGfun 1 1 exMatZero
        exThr).map FitOutcome.printed = some (some 0) ∧
    (fit 1 1 1 (get_theta_comb 1) exSolve exPfun exEstep exMatZero exGfun 0 1 exMatZero
        exThr).map FitOutcome.printed = some none ∧
    (fit 1 1 1 (get_theta_comb 1) exSolve exPfun exEstep exMatZero exGfun 1 1 exMatZero
        exThr).map FitOutcome.warned = some none ∧
    (fit 1 1 1 (get_theta_comb 1) exSolve exPfun exEstep exMatZero exGfun 0 1 exMatZero
        exThr).map FitOutcome.warned = some (some 0) :=
  ⟨rfl, rfl, rfl, rfl, rfl, rfl, rfl⟩

/-- C1 witness at `dim_size = 2`, 2 items: the constrained entry `(1, 1)`
is zeroed by the enforcer and still zero after an M-step. -/
theorem c1_witness :
    fix_slop 2 2 exMatOne 1 1 = 0 ∧ exSt1.slop 1 1 = 0 := by
  constructor
  · exact (c1_identifiability 2 2 1 exSolve exMatZero exMatZero exMatOne exThr exMatZero
      exMatZero exSt1).1 1 1 (by decide) (by decide) (by decide) (by decide)
  · exact (c1_identifiability 2 2 1 exSolve exMatZero exMatZero (fix_slop 2 2 exMatOne)
      exThr exMatZero exMatZero exSt1).2
      (fun r c h1 h2 h3 h4 =>
        (c1_identifiability 2 2 1 exSolve exMatZero exMatZero exMatOne exThr exMatZero
          exMatZero exSt1).1 r c h1 h2 h3 h4)
      rfl 1 1 (by decide) (by decide) (by decide) (by decide)

/-- C2 witness at `dim_size = 4`, `fix_param_size = 1`: pair `(1, 2)`
(table index 3, past the break point) leaves positions `(2, 3)` and
`(3, 2)` at 0, while pair `(0, 1)` (table index 0, before the break point)
fills positions `(1, 2)` and `(2, 1)` with flat column 9. -/
theorem c2_witness :
    get_hess 4 (get_theta_comb 4) exMatOne 0 1 2 3 = 0 ∧
    get_hess 4 (get_theta_comb 4) exMatOne 0 1 3 2 = 0 ∧
    get_hess 4 (get_theta_comb 4) exMatOne 0 1 1 2 = exMatOne 0 9 ∧
    get_hess 4 (get_theta_comb 4) exMatOne 0 1 2 1 = exMatOne 0 9 := by
  obtain ⟨-, hu⟩ := c2_interaction_fill_prefix 4 exMatOne 0 1 3 1 2 (by decide)
  obtain ⟨h1, h2⟩ := hu (by decide)
  obtain ⟨hf0, -⟩ := c2_interaction_fill_prefix 4 exMatOne 0 1 0 0 1 (by decide)
  obtain ⟨h3, h4⟩ := hf0 (by decide)
  exact ⟨h1, h2, h3, h4⟩

/-- C3 witness at `dim_size = 1`, one item: the recorded threshold delta of
item 0 equals the solver's `delta[0]`, here 0. -/
theorem c3_witness : exSt2.tdl 0 = 0 := by
  obtain ⟨delta, hsolve, -, -, -, -, htdl⟩ :=
    c3_per_item_newton_update 1 1 1 exSolve exMatZero exMatZero exMatZero exThr exMatZero
      exMatZero exSt2 rfl 0 (by decide)
  have h2 : some (fun _ => (0 : ℚ)) = some delta := hsolve
  injection h2 with h3
  rw [htdl, ← h3]

/-- C4 witness at `dim_size = 1`, one node: the slope-gradient row and a
Hessian-values column agree with the spec-side design-matrix description. -/
theorem c4_witness :
    jac_all 1 exMatZero (dp_mat exMatZero exMatZero exMatZero) 1 0
      = (sumRange 1 fun node =>
          exMatZero node 0 * dp_mat exMatZero exMatZero exMatZero node 0) ∧
    fake_hess 1 1 exMatZero exMatZero exMatZero 0 2
      = -(sumRange 1 fun node =>
          ddp_mat exMatZero exMatZero node 0 * (design_row_spec 1 exMatZero node).getD 2 0) := by
  obtain ⟨-, -, -, h4, h5⟩ :=
    c4_m_step_matrices 1 1 exMatZero exMatZero exMatZero exMatZero
  exact ⟨h4 1 0 (by decide) (by decide), h5 0 2 (by decide)⟩

/-- C6 witness: in the converging run the EM driver prints iteration 0. -/
theorem c6_witness :
    (fit 1 1 1 (get_theta_comb 1) exSolve exPfun exEstep exMatZero exGfun 1 1 exMatZero
      exThr).map FitOutcome.printed = some (some 0) := by
  obtain ⟨sl, th, htraj, hfit⟩ :=
    (c6_convergence_and_warning 1 1 1 (get_theta_comb 1) exSolve exPfun exEstep exMatZero
      exGfun 1 1 exMatZero exThr).1 0 (by decide)
      (fun j hj => absurd hj (Nat.not_lt_zero j))
      (0, 0) (by decide) (by decide) (by decide)
  rw [hfit]
  rfl

/-- C7 witness: with an always-raising solver, both the M-step and the
whole fit run return the raised error. -/
theorem c7_witness :
    m_step 1 1 1 (get_theta_comb 1) exSolveFail exMatZero exMatZero exMatZero exThr
      exMatZero exMatZero = none ∧
    fit 1 1 1 (get_theta_comb 1) exSolveFail exPfun exEstep exMatZero exGfun 1 1 exMatZero
      exThr = none := by
  have h := c7_singular_solve_propagates 1 1 1 (get_theta_comb 1) exSolveFail exPfun exEstep
    exMatZero exGfun 1 1 exMatZero exThr exMatZero exMatZero exMatZero exThr exMatZero
  exact ⟨h.1 0 (by decide) rfl,
    h.2 0 (by decide) exMatZero exThr (fun j hj => absurd hj (Nat.not_lt_zero j)) rfl rfl⟩

/-- C8 witness: the converging run's outcome has the loadings of its final
slope and the printed-iteration diagnostic only. -/
theorem c8_witness :
    exOutA.loadings = exGfun exOutA.slop ∧
    ((∃ k, exOutA.printed = some k ∧ exOutA.warned = none) ∨
      (exOutA.printed = none ∧ ∃ v, exOutA.warned = some v)) :=
  c8_fit_returns_triple_only 1 1 1 (get_theta_comb 1) exSolve exPfun exEstep exMatZero
    exGfun 1 1 exMatZero exThr exOutA rfl

/-- C9 witness: a too-short slope seed raises at construction for
`dim_size = 3`, and an item-count-inconsistent seed pair is accepted for
`dim_size = 1`. -/
theorem c9_witness :
    mirt_init 3 2 ⟨1, 2, exMatZero⟩ ⟨1, 2, exMatZero⟩ = Except.error "IndexError" ∧
    mirt_init 1 2 ⟨1, 3, exMatOne⟩ ⟨1, 2, exMatZero⟩
      = Except.ok ⟨⟨1, 3, fix_slop 1 3 exMatOne⟩, ⟨1, 2, exMatZero⟩⟩ := by
  constructor
  · exact (c9_no_shape_validation 3 2 ⟨1, 2, exMatZero⟩ ⟨1, 2, exMatZero⟩).1 (by decide)
  · exact (c9_no_shape_validation 1 2 ⟨1, 3, exMatOne⟩ ⟨1, 2, exMatZero⟩).2 (by decide)

/-- The heap of the aliasing witness: every id initially holds a 1×1
all-one array. -/
def exHeap0 : Heap := fun _ => ⟨1, 1, exMatOne⟩

/-- The heap after construction and one in-place EM iteration in the
aliasing witness run. -/
def exHeapF : Heap :=
  (em_iterate_heap 1 1 1 (get_theta_comb 1) exSolve exPfun exEstep exMatZero 1
    (mirt_init_heap 1 exHeap0 5 0 1).1 (mirt_init_heap 1 exHeap0 5 0 1).2.1).getD exHeap0

/-- C10 witness: with caller arrays at ids 0 and 1 and the allocation
frontier at 5, construction and one in-place EM iteration leave both caller
arrays untouched. -/
theorem c10_witness :
    ((mirt_init_heap 1 exHeap0 5 0 1).1 0 = exHeap0 0 ∧
      (mirt_init_heap 1 exHeap0 5 0 1).1 1 = exHeap0 1) ∧
    (exHeapF 0 = exHeap0 0 ∧ exHeapF 1 = exHeap0 1) := by
  have h := c10_caller_arrays_unchanged 1 1 1 (get_theta_comb 1) exSolve exPfun exEstep
    exMatZero exHeap0 5 0 1 (by decide) (by decide) 1 exHeapF
  exact ⟨h.1, h.2 rfl⟩

end Mirm
